import Mathlib

/-!
Verification of the go-restli code-generation backend.

This file gives a shallow embedding of the relevant parts of the repository:

* `internal/codegen/identifier.go` — namespace → module-path mapping
  (`PackagePath`, `FqcpToPackagePath`, the `namespaceEscape` regex) and the
  closed primitive-type catalog (`PrimitiveType.UnmarshalJSON`).
* `codegen/codefile.go` — `CodeFile`, `DeduplicateFiles`,
  `GenerateAllImportsFile`, and the comment-stripping retry loop of
  `ReadJSONFromFile`.
* `codegen/schema/collection.go` — `generateGet` request-path construction
  (its helper `buildQueryPath` lives in a file not included here and is
  modelled from the spec).
* the Java `ResourceParser.parse` bundled with `codefile.go` — the
  complex-key skip policy for resources and their sub-resources.

Strings are modelled as Lean `String`s; Go byte-level operations on them are
modelled on their `Char` lists (all inputs of interest are ASCII, where the
two views agree).
-/

namespace GoRestli

/-! ## identifier.go: the namespaceEscape regex

Go source: `var namespaceEscape = regexp.MustCompile("([/.])_?internal([/.]?)")`
used as `namespaceEscape.ReplaceAllString(fqcp, "${1}_internal${2}")`.

`ReplaceAllString` rewrites successive leftmost non-overlapping matches and
resumes scanning after the end of each match.  We embed this as a left-to-right
scanner over the character list.  The scanner is driven by a fuel argument
(initialised to the input length, which bounds the number of steps since every
step consumes at least one character) so that it is structurally recursive and
evaluates inside the kernel. -/

def isDelim (c : Char) : Bool := c = '/' || c = '.'

def internalChars : List Char := ['i', 'n', 't', 'e', 'r', 'n', 'a', 'l']

/-- Strip a literal pattern from the head of a list, returning the remainder
when the whole pattern is present. -/
def stripLead : List Char → List Char → Option (List Char)
  | [], l => some l
  | _ :: _, [] => none
  | p :: ps, c :: cs => if c = p then stripLead ps cs else none

/-- Match the regex fragment `_?internal` at the head of the list (greedy on
the optional underscore, as in the Go regex), returning the remainder after
the match.  The replacement always re-emits a single underscore, so only the
remainder is needed. -/
def matchInternal (rest : List Char) : Option (List Char) :=
  match rest with
  | '_' :: t => stripLead internalChars t
  | _ => stripLead internalChars rest

/-- Match the regex fragment `([/.]?)` greedily: consume one delimiter when
present, returning the captured text and the remainder. -/
def takeTrailing (l : List Char) : List Char × List Char :=
  match l with
  | c :: rest => if isDelim c then ([c], rest) else ([], l)
  | [] => ([], [])

/-- One pass of `ReplaceAllString`: at each position, if a match of
`([/.])_?internal([/.]?)` starts here, emit `${1}_internal${2}` and resume
after the match; otherwise copy one character and advance. -/
def escapeFuel : Nat → List Char → List Char
  | 0, l => l
  | _ + 1, [] => []
  | fuel + 1, c :: rest =>
    if isDelim c then
      match matchInternal rest with
      | some r =>
        let t := takeTrailing r
        c :: '_' :: (internalChars ++ t.1 ++ escapeFuel fuel t.2)
      | none => c :: escapeFuel fuel rest
    else c :: escapeFuel fuel rest

/-- The full `namespaceEscape.ReplaceAllString(s, "${1}_internal${2}")`. -/
def namespaceEscapeAll (l : List Char) : List Char :=
  escapeFuel l.length l

/-- Go `strings.Replace(s, ".", "/", -1)` on the character list. -/
def dotToSlash (l : List Char) : List Char :=
  l.map fun c => if c = '.' then '/' else c

/-- Go `filepath.Join(a, b)` for two elements.  `Clean` is not modelled: on
the inputs produced here (no empty, `.` or `..` segments) it is the
identity. -/
def filepathJoin (a b : String) : String :=
  if a = "" then b else if b = "" then a else a ++ "/" ++ b

/-- Go source (`identifier.go`):

    func FqcpToPackagePath(fqcp string) string {
        fqcp = strings.Replace(namespaceEscape.ReplaceAllString(fqcp,
            "${1}_internal${2}"), ".", "/", -1)
        if PackagePrefix != "" {
            fqcp = filepath.Join(PackagePrefix, fqcp)
        }
        return fqcp
    }

The package-level variable `PackagePrefix` is passed explicitly as `pre`. -/
def FqcpToPackagePath (pre : String) (fqcp : String) : String :=
  let p := String.mk (dotToSlash (namespaceEscapeAll fqcp.data))
  if pre = "" then p else filepathJoin pre p

/-- The namespace → path transform without the prefix step, for stating how
the prefix distributes. -/
def nsToPath (fqcp : String) : String :=
  String.mk (dotToSlash (namespaceEscapeAll fqcp.data))

/-- Prefix application exactly as `FqcpToPackagePath` performs it. -/
def joinPre (pre p : String) : String :=
  if pre = "" then p else filepathJoin pre p

/-! ## identifier.go: Identifier and PackagePath -/

structure Identifier where
  Name : String
  Namespace : String
deriving DecidableEq

def Identifier.GetQualifiedClasspath (i : Identifier) : String :=
  i.Namespace ++ "." ++ i.Name

/-- Go source (`identifier.go`):

    func (i Identifier) PackagePath() string {
        if i.Namespace == "" { Logger.Panicf("%+v has no namespace!", i) }
        if i.Name == "" { Logger.Panicf("%+v has no name!", i) }
        var p string
        if TypeRegistry.IsCyclic(i) { p = "conflictResolution" } else { p = i.Namespace }
        return FqcpToPackagePath(p)
    }

Panics are modelled as `none`; the global `TypeRegistry.IsCyclic` and
`PackagePrefix` are passed explicitly. -/
def PackagePath (isCyclic : Identifier → Bool) (pre : String) (i : Identifier) :
    Option String :=
  if i.Namespace = "" then none
  else if i.Name = "" then none
  else
    some (FqcpToPackagePath pre
      (if isCyclic i then "conflictResolution" else i.Namespace))

/-! ## identifier.go: the primitive-type catalog -/

structure PrimitiveType where
  typeName : String
deriving DecidableEq

/-- Go source: `var PrimitiveTypes = []PrimitiveType{...}`.  The
`newInstance` closures only allocate a fresh Go value of the corresponding
native type and play no role in name resolution, so they are not modelled. -/
def PrimitiveTypes : List PrimitiveType :=
  [⟨"int32"⟩, ⟨"int64"⟩, ⟨"float32"⟩, ⟨"float64"⟩, ⟨"bool"⟩, ⟨"string"⟩,
    ⟨"bytes"⟩]

/-- Go source (`PrimitiveType.UnmarshalJSON`): after decoding the JSON string
into `primitiveType`, scan `PrimitiveTypes` for an exact name match; assign
the matching catalog entry, otherwise return `Unknown type` as an error.  The
JSON string-decoding layer is outside this model: the input here is the
already-decoded name. -/
def unmarshalPrimitiveType (primitiveType : String) : Except String PrimitiveType :=
  match PrimitiveTypes.find? (fun pt => pt.typeName == primitiveType) with
  | some pt => Except.ok pt
  | none => Except.error ("Unknown type: " ++ primitiveType)

/-! ## codefile.go: CodeFile and DeduplicateFiles

A `CodeFile`'s `Code` field is a `jen.*Statement` in Go; `DeduplicateFiles`
compares files only through `renderCode` (the rendered byte sequence), so the
code tree is modelled by its rendered form.  Render panics are not modelled. -/

structure CodeFile where
  SourceFilename : String
  PackagePath : String
  Filename : String
  Code : String
deriving DecidableEq

/-- Go source: `func (f *CodeFile) Identifier() string { return f.PackagePath + "." + f.Filename }` -/
def CodeFile.Identifier (f : CodeFile) : String :=
  f.PackagePath ++ "." ++ f.Filename

/-- The payload of the `log.Fatalf("Conflicting defitions of %s: %s\n\n-----------\n\n%s", id, existingCode, code)`
call: the shared identifier and the two rendered bodies. -/
structure ConflictError where
  id : String
  existing : String
  conflicting : String
deriving DecidableEq

/-- Go map lookup `idToFile[id]`, with the map modelled as an association
list in insertion order (keys are kept unique by construction, so the
iteration-order difference with a Go map is erased by the final sort). -/
def lookupFile : List (String × CodeFile) → String → Option CodeFile
  | [], _ => none
  | (k, v) :: rest, id => if k = id then some v else lookupFile rest id

/-- One iteration of the `for _, file := range files` loop in
`DeduplicateFiles`: a first occurrence is stored, a duplicate with equal
rendered code is dropped, a duplicate with different rendered code is the
fatal `log.Fatalf` conflict. -/
def dedupStep (acc : List (String × CodeFile)) (f : CodeFile) :
    Except ConflictError (List (String × CodeFile)) :=
  match lookupFile acc f.Identifier with
  | some g =>
    if g.Code = f.Code then Except.ok acc
    else Except.error ⟨f.Identifier, g.Code, f.Code⟩
  | none => Except.ok (acc ++ [(f.Identifier, f)])

def dedupFold : List CodeFile → List (String × CodeFile) →
    Except ConflictError (List (String × CodeFile))
  | [], acc => Except.ok acc
  | f :: rest, acc =>
    match dedupStep acc f with
    | Except.ok acc2 => dedupFold rest acc2
    | Except.error e => Except.error e

/-! Go's `sort.Strings` sorts byte-wise lexicographically; for the code-point
lists modelled here this is the following comparator and insertion sort
(`sort.Strings` is not stable, but it is applied to a duplicate-free key
list, on which every sort agrees). -/

def charsLe : List Char → List Char → Bool
  | [], _ => true
  | _ :: _, [] => false
  | a :: as, b :: bs =>
    if a.toNat < b.toNat then true
    else if b.toNat < a.toNat then false
    else charsLe as bs

def strLe (a b : String) : Bool := charsLe a.data b.data

def insertLe (x : String) : List String → List String
  | [] => [x]
  | y :: ys => if strLe x y then x :: y :: ys else y :: insertLe x ys

def sortStrings : List String → List String
  | [] => []
  | x :: xs => insertLe x (sortStrings xs)

/-- Go source (`DeduplicateFiles`): build `idToFile` keyed by
`file.Identifier()`, failing on a conflicting duplicate; collect the keys,
`sort.Strings` them, and return the stored files in sorted key order. -/
def DeduplicateFiles (files : List CodeFile) : Except ConflictError (List CodeFile) :=
  match dedupFold files [] with
  | Except.error e => Except.error e
  | Except.ok idToFile =>
    Except.ok ((sortStrings (idToFile.map Prod.fst)).filterMap (lookupFile idToFile))

/-- Go source (`GenerateAllImportsFile`): collect every `code.PackagePath`
into the set `imports` and emit one anonymous import per member.  A Go map
iterates in unspecified order, so the emitted collection is modelled up to
order as a duplicate-free list of the distinct package paths. -/
def GenerateAllImportsFile (codeFiles : List CodeFile) : List String :=
  (codeFiles.map CodeFile.PackagePath).dedup

/-! ## codefile.go: the ReadJSONFromFile comment-stripping retry loop

`json.Unmarshal` is external; it is abstracted as a function from the data to
one of three outcomes (success, a `*json.SyntaxError` with its `Offset`, or
any other error).  The file bytes are modelled as a `Char` list. -/

inductive UnmarshalOutcome where
  | success
  | syntaxError (offset : Nat)
  | otherError
deriving DecidableEq

/-- Go `bytes.Index(l, pat)`: index of the first occurrence of `pat`, `none`
for `-1`. -/
def indexOfSub (pat : List Char) : List Char → Option Nat
  | [] => if (stripLead pat []).isSome then some 0 else none
  | c :: t =>
    if (stripLead pat (c :: t)).isSome then some 0
    else (indexOfSub pat t).map (· + 1)

/-- The comment-removal splice: `eol := bytes.Index(data[offset:], endOfComment)`
followed by `data = append(data[:offset], data[offset+eol+len(endOfComment):]...)`;
`none` models the `eol == -1` malformed-file return. -/
def cutComment (data : List Char) (offset : Nat) (pat : List Char) : Option (List Char) :=
  match indexOfSub pat (data.drop offset) with
  | none => none
  | some eol => some (data.take offset ++ data.drop (offset + eol + pat.length))

/-- The comment-detection block guarded by `data[offset] == '/'` and the
switch on `data[offset+1]`: `//` comments run to `"\n"`, `/*` comments to
`"*/"`.  `none` covers every non-retrying outcome: the malformed-file
returns, the fall-through return of the original error, and the Go runtime
panic when `offset` or `offset+1` indexes past the end of the data. -/
def stripComment (data : List Char) (offset : Nat) : Option (List Char) :=
  if hoff : offset < data.length then
    if data.get ⟨offset, hoff⟩ = '/' then
      if hoff2 : offset + 1 < data.length then
        match data.get ⟨offset + 1, hoff2⟩ with
        | '/' => cutComment data offset ['\n']
        | '*' => cutComment data offset ['*', '/']
        | _ => none
      else none
    else none
  else none

inductive StepResult where
  | done
  | retry (newData : List Char)
deriving DecidableEq

/-- One iteration of the `for` loop in `ReadJSONFromFile`: unmarshal; on a
syntax error with non-zero offset, try to strip a C-style comment at
`Offset - 1` and retry with the shortened data; every other outcome leaves
the loop. -/
def readJsonStep (unmarshal : List Char → UnmarshalOutcome) (data : List Char) :
    StepResult :=
  match unmarshal data with
  | UnmarshalOutcome.success => StepResult.done
  | UnmarshalOutcome.otherError => StepResult.done
  | UnmarshalOutcome.syntaxError off =>
    if off = 0 then StepResult.done
    else
      match stripComment data (off - 1) with
      | some d2 => StepResult.retry d2
      | none => StepResult.done

/-- The retry loop itself, driven by explicit fuel; `none` marks fuel
exhaustion and is proved unreachable for fuel exceeding the data length. -/
def readJsonLoop (unmarshal : List Char → UnmarshalOutcome) :
    Nat → List Char → Option (List Char)
  | 0, _ => none
  | fuel + 1, data =>
    match readJsonStep unmarshal data with
    | StepResult.done => some data
    | StepResult.retry d2 => readJsonLoop unmarshal fuel d2

/-! ## collection.go: generateGet path construction

The `Resource` type, `getIdentifier` and `buildQueryPath` live in repository
files not included here; only what `generateGet` needs is modelled, with
`buildQueryPath` taken from the spec. -/

structure Resource where
  Path : String
  identifierName : Option String
deriving DecidableEq

/-- Modelled from the spec: `buildQueryPath` (defined in
`codegen/schema/resource.go`, which is not among the included sources).  Per
the spec, each ancestor in the chain contributes its path segment followed
by one entity-identifier placeholder when it is a keyed collection,
outermost ancestor first in URL left-to-right order, and the template ends
with the resource's own path segment (the caller `generateGet` appends the
trailing placeholder for the resource's own entity). -/
def buildQueryPath (resources : List Resource) (path : String) : String :=
  resources.dropLast.foldr
    (fun r acc => r.Path ++ (if r.identifierName.isSome then "/%s/" else "/") ++ acc)
    path

/-- Go source (`generateGet`): `resources = parents ++ [thisResource]`, then
`queryPath = buildQueryPath(resources, thisResource.Path) + "/%s"`. -/
def generateGetPath (parentResources : List Resource) (thisResource : Resource) :
    String :=
  buildQueryPath (parentResources ++ [thisResource]) thisResource.Path ++ "/%s"

/-- Go source (`generateGet`): the `fmt.Sprintf` argument list, one
`<name>Str` per resource in the chain that has an identifier, in chain
order. -/
def generateGetArgs (parentResources : List Resource) (thisResource : Resource) :
    List String :=
  (parentResources ++ [thisResource]).filterMap
    fun r => r.identifierName.map (fun n => n ++ "Str")

/-- Occurrences of the placeholder marker in a template (each emitted
placeholder is `"%s"`, and `'%'` occurs nowhere else when the path segments
are percent-free). -/
def percentCount (s : String) : Nat := s.data.count '%'

/-! ## ResourceParser.java: the complex-key skip policy

From the Java `ResourceParser` bundled with `codefile.go`.  A
`ResourceSchema` is modelled by its name, its optional collection section
(whether `getIdentifier().hasParams()` holds, and the entity sub-resources)
and its optional simple section (its entity sub-resources); the supports,
finders, and actions do not influence which resources are emitted or
skipped.  `parse` returns the namespace chains of the emitted resources
(modelling the returned `Set<Resource>`) together with the namespace chains
reported by the `Utils.log("Complex Key resources are not supported. ...")`
call. -/

inductive ResourceSchema where
  | mk (name : String) (collection : Option (Bool × List ResourceSchema))
      (simple : Option (List ResourceSchema))

def ResourceSchema.name : ResourceSchema → String
  | .mk n _ _ => n

mutual

/-- Java `ResourceParser.parse()`: append this schema's name to the
namespace chain; if the schema has a collection whose identifier has params,
log the skip and return the empty set; otherwise emit this resource and
recurse into the simple and collection entity sub-resources. -/
def parse (chain0 : List String) : ResourceSchema → List (List String) × List (List String)
  | .mk name (some (true, _)) _ => ([], [chain0 ++ [name]])
  | .mk name (some (false, csubs)) (some ssubs) =>
    let chain := chain0 ++ [name]
    let s := parseList chain ssubs
    let c := parseList chain csubs
    (chain :: (s.1 ++ c.1), s.2 ++ c.2)
  | .mk name (some (false, csubs)) none =>
    let chain := chain0 ++ [name]
    let c := parseList chain csubs
    (chain :: c.1, c.2)
  | .mk name none (some ssubs) =>
    let chain := chain0 ++ [name]
    let s := parseList chain ssubs
    (chain :: s.1, s.2)
  | .mk name none none => ([chain0 ++ [name]], [])

def parseList (chain : List String) : List ResourceSchema → List (List String) × List (List String)
  | [] => ([], [])
  | s :: rest =>
    let r1 := parse chain s
    let r2 := parseList chain rest
    (r1.1 ++ r2.1, r1.2 ++ r2.2)

end

/-! ## Helper lemmas: the string insertion sort -/

theorem insertLe_perm (x : String) (l : List String) : (insertLe x l).Perm (x :: l) := by
  induction l with
  | nil => exact List.Perm.refl _
  | cons y ys ih =>
    simp only [insertLe]
    split
    · exact List.Perm.refl _
    · exact (ih.cons y).trans (List.Perm.swap x y ys)

theorem sortStrings_perm (l : List String) : (sortStrings l).Perm l := by
  induction l with
  | nil => exact List.Perm.refl _
  | cons x xs ih => exact (insertLe_perm x (sortStrings xs)).trans (ih.cons x)

theorem charsLe_total (a b : List Char) : charsLe a b = true ∨ charsLe b a = true := by
  induction a generalizing b with
  | nil => left; rfl
  | cons x xs ih =>
    cases b with
    | nil => right; rfl
    | cons y ys =>
      by_cases h1 : x.toNat < y.toNat
      · left; simp [charsLe, h1]
      · by_cases h2 : y.toNat < x.toNat
        · right; simp [charsLe, h2, h1]
        · rcases ih ys with h | h
          · left; simpa [charsLe, h1, h2] using h
          · right; simpa [charsLe, h1, h2] using h

theorem charsLe_trans (a b c : List Char) (hab : charsLe a b = true)
    (hbc : charsLe b c = true) : charsLe a c = true := by
  induction a generalizing b c with
  | nil => rfl
  | cons x xs ih =>
    cases b with
    | nil => simp [charsLe] at hab
    | cons y ys =>
      cases c with
      | nil => simp [charsLe] at hbc
      | cons z zs =>
        simp only [charsLe] at hab hbc ⊢
        by_cases hxy : x.toNat < y.toNat <;> by_cases hyx : y.toNat < x.toNat <;>
          by_cases hyz : y.toNat < z.toNat <;> by_cases hzy : z.toNat < y.toNat <;>
            simp [hxy, hyx, hyz, hzy] at hab hbc ⊢ <;>
              first
                | omega
                | (have hxz : ¬ x.toNat < z.toNat := by omega
                   have hzx : ¬ z.toNat < x.toNat := by omega
                   simp [hxz, hzx]
                   first
                     | exact ih ys zs hab hbc
                     | exact ⟨by omega, ih ys zs hab hbc⟩)

theorem strLe_total (a b : String) : strLe a b = true ∨ strLe b a = true :=
  charsLe_total a.data b.data

theorem strLe_trans (a b c : String) (hab : strLe a b = true) (hbc : strLe b c = true) :
    strLe a c = true :=
  charsLe_trans a.data b.data c.data hab hbc

theorem insertLe_sorted (x : String) (l : List String)
    (h : l.Pairwise (fun a b => strLe a b = true)) :
    (insertLe x l).Pairwise (fun a b => strLe a b = true) := by
  induction l with
  | nil => simp [insertLe]
  | cons y ys ih =>
    simp only [insertLe]
    rcases List.pairwise_cons.mp h with ⟨hy, hys⟩
    split
    · rename_i hxy
      refine List.pairwise_cons.mpr ⟨?_, h⟩
      intro z hz
      rcases List.mem_cons.mp hz with rfl | hz
      · exact hxy
      · exact strLe_trans x y z hxy (hy z hz)
    · rename_i hxy
      have hyx : strLe y x = true := by
        rcases strLe_total x y with h' | h'
        · exact absurd h' hxy
        · exact h'
      refine List.pairwise_cons.mpr ⟨?_, ih hys⟩
      intro z hz
      rcases List.mem_cons.mp ((insertLe_perm x ys).mem_iff.mp hz) with rfl | hz
      · exact hyx
      · exact hy z hz

theorem sortStrings_sorted (l : List String) :
    (sortStrings l).Pairwise (fun a b => strLe a b = true) := by
  induction l with
  | nil => simp [sortStrings]
  | cons x xs ih => exact insertLe_sorted x (sortStrings xs) ih

/-! ## Helper lemmas: association-list lookup -/

theorem lookupFile_mem (acc : List (String × CodeFile)) (k : String) (v : CodeFile)
    (h : lookupFile acc k = some v) : (k, v) ∈ acc := by
  induction acc with
  | nil => simp [lookupFile] at h
  | cons kv rest ih =>
    obtain ⟨k2, v2⟩ := kv
    simp only [lookupFile] at h
    split at h
    · rename_i heq
      cases h
      exact List.mem_cons.mpr (Or.inl (by rw [heq]))
    · exact List.mem_cons.mpr (Or.inr (ih h))

theorem lookupFile_append_some (acc l2 : List (String × CodeFile)) (k : String)
    (v : CodeFile) (h : lookupFile acc k = some v) :
    lookupFile (acc ++ l2) k = some v := by
  induction acc with
  | nil => simp [lookupFile] at h
  | cons kv rest ih =>
    obtain ⟨k2, v2⟩ := kv
    simp only [lookupFile, List.cons_append] at h ⊢
    split at h
    · rename_i heq
      simp [heq, h]
    · rename_i hne
      simp only [if_neg hne]
      exact ih h

theorem lookupFile_append_self (acc : List (String × CodeFile)) (k : String)
    (v : CodeFile) (h : lookupFile acc k = none) :
    lookupFile (acc ++ [(k, v)]) k = some v := by
  induction acc with
  | nil => simp [lookupFile]
  | cons kv rest ih =>
    obtain ⟨k2, v2⟩ := kv
    simp only [lookupFile] at h
    split at h
    · exact absurd h (by simp)
    · rename_i hne
      simpa [lookupFile, hne] using ih h

theorem lookupFile_none_not_mem (acc : List (String × CodeFile)) (k : String)
    (h : lookupFile acc k = none) : k ∉ acc.map Prod.fst := by
  induction acc with
  | nil => simp
  | cons kv rest ih =>
    obtain ⟨k2, v2⟩ := kv
    simp only [lookupFile] at h
    split at h
    · exact absurd h (by simp)
    · rename_i hne
      simp only [List.map_cons, List.mem_cons]
      push_neg
      exact ⟨fun hk => hne hk.symm, ih h⟩

theorem lookupFile_isSome_of_mem (acc : List (String × CodeFile)) (k : String)
    (h : k ∈ acc.map Prod.fst) : (lookupFile acc k).isSome := by
  induction acc with
  | nil => simp at h
  | cons kv rest ih =>
    obtain ⟨k2, v2⟩ := kv
    simp only [List.map_cons, List.mem_cons] at h
    simp only [lookupFile]
    split
    · rfl
    · rename_i hne
      rcases h with rfl | h
      · exact absurd rfl hne
      · exact ih h

/-! ## Helper lemmas: the deduplication fold -/

theorem dedupFold_ok_pres (l : List CodeFile) : ∀ (acc out : List (String × CodeFile)),
    dedupFold l acc = Except.ok out →
    ∀ (k : String) (v : CodeFile), lookupFile acc k = some v → lookupFile out k = some v := by
  induction l with
  | nil =>
    intro acc out h k v hk
    simp only [dedupFold, Except.ok.injEq] at h
    subst h
    exact hk
  | cons f rest ih =>
    intro acc out h k v hk
    cases hl : lookupFile acc f.Identifier with
    | none =>
      simp only [dedupFold, dedupStep, hl] at h
      exact ih _ _ h k v (lookupFile_append_some acc _ k v hk)
    | some g =>
      by_cases hc : g.Code = f.Code
      · simp only [dedupFold, dedupStep, hl, if_pos hc] at h
        exact ih _ _ h k v hk
      · simp only [dedupFold, dedupStep, hl, if_neg hc] at h
        exact Except.noConfusion h

theorem dedupFold_ok_proc (l : List CodeFile) : ∀ (acc out : List (String × CodeFile)),
    dedupFold l acc = Except.ok out →
    ∀ f ∈ l, ∃ g, lookupFile out f.Identifier = some g ∧ g.Code = f.Code := by
  induction l with
  | nil =>
    intro acc out _ f hf
    simp at hf
  | cons f0 rest ih =>
    intro acc out h f hf
    cases hl : lookupFile acc f0.Identifier with
    | none =>
      simp only [dedupFold, dedupStep, hl] at h
      rcases List.mem_cons.mp hf with rfl | hf2
      · exact ⟨f, dedupFold_ok_pres rest _ _ h _ _ (lookupFile_append_self acc _ _ hl), rfl⟩
      · exact ih _ _ h f hf2
    | some g =>
      by_cases hc : g.Code = f0.Code
      · simp only [dedupFold, dedupStep, hl, if_pos hc] at h
        rcases List.mem_cons.mp hf with rfl | hf2
        · exact ⟨g, dedupFold_ok_pres rest _ _ h _ _ hl, hc⟩
        · exact ih _ _ h f hf2
      · simp only [dedupFold, dedupStep, hl, if_neg hc] at h
        exact Except.noConfusion h

theorem dedupFold_ok_ids (l : List CodeFile) : ∀ (acc out : List (String × CodeFile)),
    (∀ kv ∈ acc, (kv.2).Identifier = kv.1) → dedupFold l acc = Except.ok out →
    ∀ kv ∈ out, (kv.2).Identifier = kv.1 := by
  induction l with
  | nil =>
    intro acc out hA h
    simp only [dedupFold, Except.ok.injEq] at h
    subst h
    exact hA
  | cons f rest ih =>
    intro acc out hA h
    cases hl : lookupFile acc f.Identifier with
    | none =>
      simp only [dedupFold, dedupStep, hl] at h
      refine ih _ _ ?_ h
      intro kv hkv
      rcases List.mem_append.mp hkv with hkv | hkv
      · exact hA kv hkv
      · rw [List.mem_singleton.mp hkv]
    | some g =>
      by_cases hc : g.Code = f.Code
      · simp only [dedupFold, dedupStep, hl, if_pos hc] at h
        exact ih _ _ hA h
      · simp only [dedupFold, dedupStep, hl, if_neg hc] at h
        exact Except.noConfusion h

theorem dedupFold_ok_nodup (l : List CodeFile) : ∀ (acc out : List (String × CodeFile)),
    (acc.map Prod.fst).Nodup → dedupFold l acc = Except.ok out →
    (out.map Prod.fst).Nodup := by
  induction l with
  | nil =>
    intro acc out hnd h
    simp only [dedupFold, Except.ok.injEq] at h
    subst h
    exact hnd
  | cons f rest ih =>
    intro acc out hnd h
    cases hl : lookupFile acc f.Identifier with
    | none =>
      simp only [dedupFold, dedupStep, hl] at h
      refine ih _ _ ?_ h
      simp only [List.map_append, List.map_cons, List.map_nil]
      refine List.Nodup.append hnd (List.nodup_singleton _) ?_
      intro a ha hb
      rw [List.mem_singleton.mp hb] at ha
      exact lookupFile_none_not_mem acc _ hl ha
    | some g =>
      by_cases hc : g.Code = f.Code
      · simp only [dedupFold, dedupStep, hl, if_pos hc] at h
        exact ih _ _ hnd h
      · simp only [dedupFold, dedupStep, hl, if_neg hc] at h
        exact Except.noConfusion h

theorem dedupFold_error_names (l : List CodeFile) : ∀ (acc : List (String × CodeFile))
    (e : ConflictError), (∀ kv ∈ acc, (kv.2).Identifier = kv.1) →
    dedupFold l acc = Except.error e →
    ∃ f, f ∈ l ∧ f.Identifier = e.id ∧ e.conflicting = f.Code ∧
      ∃ g, (g ∈ acc.map Prod.snd ∨ g ∈ l) ∧ g.Identifier = e.id ∧
        e.existing = g.Code ∧ g.Code ≠ f.Code := by
  induction l with
  | nil =>
    intro acc e _ h
    simp [dedupFold] at h
  | cons f rest ih =>
    intro acc e hA h
    cases hl : lookupFile acc f.Identifier with
    | none =>
      simp only [dedupFold, dedupStep, hl] at h
      have hA2 : ∀ kv ∈ acc ++ [(f.Identifier, f)], (kv.2).Identifier = kv.1 := by
        intro kv hkv
        rcases List.mem_append.mp hkv with hkv | hkv
        · exact hA kv hkv
        · rw [List.mem_singleton.mp hkv]
      obtain ⟨f2, hf2, hid, hcc, g, hg, hgid, hge, hgne⟩ := ih _ _ hA2 h
      refine ⟨f2, List.mem_cons_of_mem f hf2, hid, hcc, g, ?_, hgid, hge, hgne⟩
      rcases hg with hg | hg
      · simp only [List.map_append, List.map_cons, List.map_nil] at hg
        rcases List.mem_append.mp hg with hg | hg
        · exact Or.inl hg
        · rw [List.mem_singleton.mp hg]
          exact Or.inr (List.mem_cons_self f rest)
      · exact Or.inr (List.mem_cons_of_mem f hg)
    | some g =>
      by_cases hc : g.Code = f.Code
      · simp only [dedupFold, dedupStep, hl, if_pos hc] at h
        obtain ⟨f2, hf2, hid, hcc, g2, hg2, hgid, hge, hgne⟩ := ih _ _ hA h
        refine ⟨f2, List.mem_cons_of_mem f hf2, hid, hcc, g2, ?_, hgid, hge, hgne⟩
        rcases hg2 with hg2 | hg2
        · exact Or.inl hg2
        · exact Or.inr (List.mem_cons_of_mem f hg2)
      · simp only [dedupFold, dedupStep, hl, if_neg hc, Except.error.injEq] at h
        subst h
        have hmem := lookupFile_mem acc f.Identifier g hl
        refine ⟨f, List.mem_cons_self f rest, rfl, rfl, g, ?_, ?_, rfl, hc⟩
        · exact Or.inl (List.mem_map.mpr ⟨(f.Identifier, g), hmem, rfl⟩)
        · exact hA (f.Identifier, g) hmem

/-! ## Helper lemmas: the sorted lookup pass -/

theorem filterMap_lookup_map_id (acc : List (String × CodeFile)) (ids : List String)
    (hA : ∀ kv ∈ acc, (kv.2).Identifier = kv.1)
    (hsome : ∀ id ∈ ids, (lookupFile acc id).isSome) :
    (ids.filterMap (lookupFile acc)).map CodeFile.Identifier = ids := by
  induction ids with
  | nil => rfl
  | cons id rest ih =>
    have h1 := hsome id (List.mem_cons_self id rest)
    cases hg : lookupFile acc id with
    | none =>
      rw [hg] at h1
      simp at h1
    | some g =>
      simp only [List.filterMap_cons, hg, List.map_cons, List.cons.injEq]
      refine ⟨hA (id, g) (lookupFile_mem acc id g hg), ?_⟩
      exact ih fun i hi => hsome i (List.mem_cons_of_mem id hi)

theorem countP_filterMap_zero (acc : List (String × CodeFile)) (ids : List String)
    (s : String) (hA : ∀ kv ∈ acc, (kv.2).Identifier = kv.1) (hs : s ∉ ids) :
    ((ids.filterMap (lookupFile acc)).countP fun g => g.Identifier = s) = 0 := by
  induction ids with
  | nil => rfl
  | cons id rest ih =>
    simp only [List.mem_cons] at hs
    push_neg at hs
    cases hg : lookupFile acc id with
    | none =>
      simp only [List.filterMap_cons, hg]
      exact ih hs.2
    | some g =>
      have hgid : g.Identifier = id := hA (id, g) (lookupFile_mem acc id g hg)
      simp only [List.filterMap_cons, hg, List.countP_cons, hgid]
      rw [ih hs.2]
      simp [Ne.symm hs.1]

theorem countP_filterMap_one (acc : List (String × CodeFile)) (ids : List String)
    (s : String) (hA : ∀ kv ∈ acc, (kv.2).Identifier = kv.1)
    (hsome : ∀ id ∈ ids, (lookupFile acc id).isSome)
    (hnd : ids.Nodup) (hs : s ∈ ids) :
    ((ids.filterMap (lookupFile acc)).countP fun g => g.Identifier = s) = 1 := by
  induction ids with
  | nil => simp at hs
  | cons id rest ih =>
    have h1 := hsome id (List.mem_cons_self id rest)
    cases hg : lookupFile acc id with
    | none =>
      rw [hg] at h1
      simp at h1
    | some g =>
      have hgid : g.Identifier = id := hA (id, g) (lookupFile_mem acc id g hg)
      simp only [List.filterMap_cons, hg, List.countP_cons, hgid]
      rcases List.mem_cons.mp hs with rfl | hs2
      · rw [countP_filterMap_zero acc rest s hA (List.nodup_cons.mp hnd).1]
        simp
      · have hne : id ≠ s := by
          intro h2
          subst h2
          exact (List.nodup_cons.mp hnd).1 hs2
        rw [ih (fun i hi => hsome i (List.mem_cons_of_mem id hi))
          (List.nodup_cons.mp hnd).2 hs2]
        simp [hne]

/-! ## Claim C1 -/

/-- C1: `DeduplicateFiles` merges code files keyed by (module path,
declaration name) — realised as the identifier string
`PackagePath ++ "." ++ Filename`.  When all files sharing a key render to
structurally identical code, the merge succeeds and keeps exactly one unit
per key; when two files with the same key render differently, the result is
the fatal conflict (`log.Fatalf`), whose payload names the shared
declaration key and carries both full rendered bodies. -/
theorem c1_deduplicateFiles_merge_conflict (files : List CodeFile) :
    ((∀ f ∈ files, ∀ g ∈ files, f.Identifier = g.Identifier → f.Code = g.Code) →
      ∃ out, DeduplicateFiles files = Except.ok out ∧
        ∀ f ∈ files, (out.countP fun g => g.Identifier = f.Identifier) = 1) ∧
    ((∃ f ∈ files, ∃ g ∈ files, f.Identifier = g.Identifier ∧ f.Code ≠ g.Code) →
      ∃ e, DeduplicateFiles files = Except.error e ∧
        ∃ f ∈ files, ∃ g ∈ files, g.Identifier = e.id ∧ f.Identifier = e.id ∧
          e.existing = g.Code ∧ e.conflicting = f.Code ∧ g.Code ≠ f.Code) := by
  constructor
  · intro hok
    cases hfold : dedupFold files [] with
    | error e =>
      obtain ⟨f, hf, hid, _, g, hg, hgid, _, hgne⟩ :=
        dedupFold_error_names files [] e (by simp) hfold
      rcases hg with hg | hg
      · simp at hg
      · exact absurd (hok g hg f hf (hgid.trans hid.symm)) hgne
    | ok acc =>
      have hA := dedupFold_ok_ids files [] acc (by simp) hfold
      have hnd := dedupFold_ok_nodup files [] acc (by simp) hfold
      refine ⟨(sortStrings (acc.map Prod.fst)).filterMap (lookupFile acc),
        by simp [DeduplicateFiles, hfold], ?_⟩
      intro f hf
      have hkeys : ∀ id ∈ sortStrings (acc.map Prod.fst), (lookupFile acc id).isSome :=
        fun id hid2 => lookupFile_isSome_of_mem acc id ((sortStrings_perm _).mem_iff.mp hid2)
      have hnd2 : (sortStrings (acc.map Prod.fst)).Nodup :=
        ((sortStrings_perm _).nodup_iff).mpr hnd
      have hfin : f.Identifier ∈ sortStrings (acc.map Prod.fst) := by
        obtain ⟨g, hlook, _⟩ := dedupFold_ok_proc files [] acc hfold f hf
        exact (sortStrings_perm _).mem_iff.mpr
          (List.mem_map.mpr ⟨(f.Identifier, g), lookupFile_mem acc _ g hlook, rfl⟩)
      exact countP_filterMap_one acc _ f.Identifier hA hkeys hnd2 hfin
  · rintro ⟨f, hf, g, hg, hid, hne⟩
    cases hfold : dedupFold files [] with
    | ok acc =>
      obtain ⟨gf, hlookf, hcodef⟩ := dedupFold_ok_proc files [] acc hfold f hf
      obtain ⟨gg, hlookg, hcodeg⟩ := dedupFold_ok_proc files [] acc hfold g hg
      rw [hid] at hlookf
      rw [hlookf, Option.some.injEq] at hlookg
      exact absurd (hcodef.symm.trans (hlookg ▸ hcodeg)) hne
    | error e =>
      obtain ⟨f2, hf2, hid2, hcc, g2, hg2, hgid2, hge2, hgne2⟩ :=
        dedupFold_error_names files [] e (by simp) hfold
      rcases hg2 with hg2 | hg2
      · simp at hg2
      · exact ⟨e, by simp [DeduplicateFiles, hfold],
          f2, hf2, g2, hg2, hgid2, hid2, hge2, hcc, hgne2⟩

/-- Witness for C1: a concrete duplicate-free merge, obtained by applying
the theorem at a three-file input with one exact duplicate pair. -/
theorem c1_witness :
    ∃ out,
      DeduplicateFiles
        [⟨"s", "p/b", "U", "c3"⟩, ⟨"s", "p/a", "T", "c1"⟩, ⟨"s", "p/a", "T", "c1"⟩] =
        Except.ok out ∧
      ∀ f ∈ ([⟨"s", "p/b", "U", "c3"⟩, ⟨"s", "p/a", "T", "c1"⟩,
          ⟨"s", "p/a", "T", "c1"⟩] : List CodeFile),
        (out.countP fun g => g.Identifier = f.Identifier) = 1 :=
  (c1_deduplicateFiles_merge_conflict
    [⟨"s", "p/b", "U", "c3"⟩, ⟨"s", "p/a", "T", "c1"⟩, ⟨"s", "p/a", "T", "c1"⟩]).1
    (by decide)

/-! ## Claim C7 -/

/-- C7: the deduplicated output list is globally sorted by the (module path,
declaration name) key, in the byte-wise lexicographic order `sort.Strings`
applies to the combined identifier strings; the keys are pairwise distinct
after merging, so the sort is trivially stable and, the embedding being a
pure function, the output order is identical across runs for identical
input. -/
theorem c7_deduplicateFiles_sorted (files : List CodeFile) (out : List CodeFile)
    (h : DeduplicateFiles files = Except.ok out) :
    out.Pairwise fun f g => strLe f.Identifier g.Identifier = true := by
  cases hfold : dedupFold files [] with
  | error e =>
    simp [DeduplicateFiles, hfold] at h
  | ok acc =>
    simp only [DeduplicateFiles, hfold, Except.ok.injEq] at h
    subst h
    have hA := dedupFold_ok_ids files [] acc (by simp) hfold
    have hkeys : ∀ id ∈ sortStrings (acc.map Prod.fst), (lookupFile acc id).isSome :=
      fun id hid2 => lookupFile_isSome_of_mem acc id ((sortStrings_perm _).mem_iff.mp hid2)
    have hmapid := filterMap_lookup_map_id acc (sortStrings (acc.map Prod.fst)) hA hkeys
    have hsorted := sortStrings_sorted (acc.map Prod.fst)
    rw [← hmapid] at hsorted
    exact List.pairwise_map.mp hsorted

/-- Witness for C7: the theorem applied to a concrete two-file input whose
deduplicated output is computed by `rfl`. -/
theorem c7_witness :
    ([⟨"s", "p/a", "T", "c1"⟩, ⟨"s", "p/b", "U", "c3"⟩] : List CodeFile).Pairwise
      (fun f g => strLe f.Identifier g.Identifier = true) :=
  c7_deduplicateFiles_sorted
    [⟨"s", "p/b", "U", "c3"⟩, ⟨"s", "p/a", "T", "c1"⟩]
    [⟨"s", "p/a", "T", "c1"⟩, ⟨"s", "p/b", "U", "c3"⟩] rfl

/-! ## Claim C8 -/

/-- C8: the companion aggregate file imports exactly the set of distinct
module paths of the produced code files: a path is imported iff some
produced file lives at it, and no path is imported twice. -/
theorem c8_allImports_exact (codeFiles : List CodeFile) :
    (∀ p, p ∈ GenerateAllImportsFile codeFiles ↔ ∃ f ∈ codeFiles, f.PackagePath = p) ∧
    (GenerateAllImportsFile codeFiles).Nodup := by
  refine ⟨fun p => ?_, List.nodup_dedup _⟩
  simp [GenerateAllImportsFile, List.mem_dedup, List.mem_map]

/-- Witness for C8: the theorem applied at a concrete one-file input. -/
theorem c8_witness :
    "p" ∈ GenerateAllImportsFile [⟨"s", "p", "T", "c"⟩] :=
  ((c8_allImports_exact [⟨"s", "p", "T", "c"⟩]).1 "p").mpr
    ⟨⟨"s", "p", "T", "c"⟩, by simp, rfl⟩

/-! ## Claim C2 -/

/-- C2: for every identity with a non-empty name and non-empty namespace,
the computed module path is the namespace run through the path transform
(internal-escaping followed by replacing dots with slashes), except that a
cyclic identity's computed path is discarded in favour of the reserved
`conflictResolution` path; in both cases the configured package prefix, when
non-empty, is prepended uniformly (outside the cyclic choice). -/
theorem c2_packagePath_transform (isCyclic : Identifier → Bool) (pre : String)
    (i : Identifier) (hn : i.Name ≠ "") (hns : i.Namespace ≠ "") :
    PackagePath isCyclic pre i =
      some (joinPre pre
        (if isCyclic i then "conflictResolution" else nsToPath i.Namespace)) := by
  simp only [PackagePath, if_neg hns, if_neg hn]
  cases hcy : isCyclic i
  · simp only [Bool.false_eq_true, if_false]
    rfl
  · simp only [if_true]
    show some (joinPre pre (nsToPath "conflictResolution")) = _
    rfl

/-- Witness for C2: the theorem applied at a concrete non-cyclic identity
with a prefix, the right-hand side evaluated to its literal path. -/
theorem c2_witness :
    PackagePath (fun _ => false) "github.com/acme" ⟨"Foo", "com.example"⟩ =
      some "github.com/acme/com/example" :=
  (c2_packagePath_transform (fun _ => false) "github.com/acme"
    ⟨"Foo", "com.example"⟩ (by decide) (by decide)).trans (by rfl)

/-! ## Claim C6 -/

/-- C6: computing the module path of an identity whose namespace is empty is
the fatal `Logger.Panicf` configuration error (modelled as `none`); such an
identity is never silently mapped to a path. -/
theorem c6_empty_namespace_fatal (isCyclic : Identifier → Bool) (pre : String)
    (i : Identifier) (h : i.Namespace = "") :
    PackagePath isCyclic pre i = none := by
  simp [PackagePath, h]

/-- Witness for C6: the theorem applied at a concrete identity with an empty
namespace. -/
theorem c6_witness :
    PackagePath (fun _ => true) "github.com/acme" ⟨"Name", ""⟩ = none :=
  c6_empty_namespace_fatal (fun _ => true) "github.com/acme" ⟨"Name", ""⟩ rfl

/-! ## Claim C5 -/

/-- C5: deserializing a primitive type name succeeds exactly when the name is
one of the closed catalog int32, int64, float32, float64, bool, string,
bytes — in which case the resolved entry carries that very name, never a
coerced one — and every unknown name yields an error. -/
theorem c5_primitive_catalog_closed (name : String) :
    ((∃ pt, unmarshalPrimitiveType name = Except.ok pt ∧ pt.typeName = name) ↔
      name ∈ ["int32", "int64", "float32", "float64", "bool", "string", "bytes"]) ∧
    (name ∉ ["int32", "int64", "float32", "float64", "bool", "string", "bytes"] →
      ∃ msg, unmarshalPrimitiveType name = Except.error msg) := by
  constructor
  · constructor
    · rintro ⟨pt, hok, -⟩
      unfold unmarshalPrimitiveType at hok
      cases hfind : PrimitiveTypes.find? (fun pt => pt.typeName == name) with
      | none =>
        rw [hfind] at hok
        exact Except.noConfusion hok
      | some q =>
        have hq := List.mem_of_find?_eq_some hfind
        have hqn := List.find?_some hfind
        rw [beq_iff_eq] at hqn
        subst hqn
        fin_cases hq <;> decide
    · intro hmem
      fin_cases hmem <;> exact ⟨_, rfl, rfl⟩
  · intro hnot
    cases hfind : PrimitiveTypes.find? (fun pt => pt.typeName == name) with
    | some q =>
      have hq := List.mem_of_find?_eq_some hfind
      have hqn := List.find?_some hfind
      rw [beq_iff_eq] at hqn
      subst hqn
      exact absurd (by fin_cases hq <;> decide) hnot
    | none => exact ⟨"Unknown type: " ++ name, by simp [unmarshalPrimitiveType, hfind]⟩

/-- Witness for C5: the theorem applied at the catalog name `int32` (success
side) and at the unknown name `int8` (error side). -/
theorem c5_witness :
    (∃ pt, unmarshalPrimitiveType "int32" = Except.ok pt ∧
      PrimitiveType.typeName pt = "int32") ∧
    (∃ msg, unmarshalPrimitiveType "int8" = Except.error msg) :=
  ⟨((c5_primitive_catalog_closed "int32").1).mpr (by decide),
    (c5_primitive_catalog_closed "int8").2 (by decide)⟩

/-! ## Claim C9 -/

/-- C9 counterexample: the claim predicts that in `a.internal.internal` both
non-leading `internal` segments are rewritten, producing
`a/_internal/_internal` with no non-leading segment spelled `internal`.  In
fact the regex match consumes the delimiter that follows `internal`, so the
scan resumes past it and the second `internal` segment is left untouched:
the code produces `a/_internal/internal`, whose final (non-leading) segment
is exactly `internal`. -/
theorem c9_counterexample :
    FqcpToPackagePath "" "a.internal.internal" = "a/_internal/internal" ∧
    FqcpToPackagePath "" "a.internal.internal" ≠ "a/_internal/_internal" :=
  ⟨rfl, by decide⟩

/-- C9 (amended): `FqcpToPackagePath` rewrites the leftmost non-overlapping
matches of a `.`/`/` delimiter followed by an optional underscore, the
literal `internal`, and an optional trailing delimiter, inserting an
underscore before `internal`; because each match consumes its trailing
delimiter, an `internal` segment immediately following a rewritten one is
not itself rewritten.  It then replaces every `.` with `/` — so no dot
survives into the prefix-free result — and prepends the configured package
prefix when it is non-empty. -/
theorem c9_fqcp_escape_amended :
    (∀ fqcp : String, '.' ∉ (FqcpToPackagePath "" fqcp).data) ∧
    (∀ pre : String,
      FqcpToPackagePath pre "x.internal.y" = joinPre pre "x/_internal/y") ∧
    (∀ pre : String,
      FqcpToPackagePath pre "a.internal.internal" =
        joinPre pre "a/_internal/internal") := by
  refine ⟨?_, ?_, ?_⟩
  · intro fqcp hmem
    have hmem2 : '.' ∈ dotToSlash (namespaceEscapeAll fqcp.data) := hmem
    rcases List.mem_map.mp hmem2 with ⟨c, -, hc⟩
    by_cases h : c = '.' <;> simp [h] at hc
  · intro pre
    show joinPre pre (nsToPath "x.internal.y") = _
    rfl
  · intro pre
    show joinPre pre (nsToPath "a.internal.internal") = _
    rfl

/-- Witness for C9: the amended theorem applied at a concrete input with a
dot in the namespace. -/
theorem c9_witness : '.' ∉ (FqcpToPackagePath "" "a.b.c").data :=
  c9_fqcp_escape_amended.1 "a.b.c"

/-! ## Helper lemmas: the comment-stripping retry loop -/

theorem stripLead_length (pat : List Char) : ∀ (l r : List Char),
    stripLead pat l = some r → pat.length + r.length = l.length := by
  induction pat with
  | nil =>
    intro l r h
    simp only [stripLead, Option.some.injEq] at h
    subst h
    simp
  | cons p ps ih =>
    intro l r h
    cases l with
    | nil => exact Option.noConfusion h
    | cons c cs =>
      simp only [stripLead] at h
      split at h
      · have := ih cs r h
        simp only [List.length_cons]
        omega
      · exact Option.noConfusion h

theorem stripLead_isSome_le (pat l : List Char) (h : (stripLead pat l).isSome) :
    pat.length ≤ l.length := by
  cases hs : stripLead pat l with
  | none => rw [hs] at h; simp at h
  | some r =>
    have := stripLead_length pat l r hs
    omega

theorem indexOfSub_bound (pat : List Char) : ∀ (l : List Char) (i : Nat),
    indexOfSub pat l = some i → i + pat.length ≤ l.length := by
  intro l
  induction l with
  | nil =>
    intro i h
    cases pat with
    | nil =>
      simp only [indexOfSub, stripLead, Option.isSome_some, if_true,
        Option.some.injEq] at h
      subst h
      simp
    | cons p ps =>
      rw [show indexOfSub (p :: ps) [] = none from rfl] at h
      exact Option.noConfusion h
  | cons c t ih =>
    intro i h
    simp only [indexOfSub] at h
    split at h
    · rename_i hstart
      cases h
      simpa using stripLead_isSome_le pat (c :: t) hstart
    · cases hj : indexOfSub pat t with
      | none => rw [hj] at h; exact Option.noConfusion h
      | some j =>
        rw [hj] at h
        simp only [Option.map_some', Option.some.injEq] at h
        subst h
        have := ih j hj
        simp only [List.length_cons]
        omega

theorem cutComment_lt (data : List Char) (offset : Nat) (pat : List Char)
    (d2 : List Char) (hoff : offset < data.length) (hpat : 1 ≤ pat.length)
    (h : cutComment data offset pat = some d2) : d2.length < data.length := by
  unfold cutComment at h
  cases hidx : indexOfSub pat (data.drop offset) with
  | none => rw [hidx] at h; exact Option.noConfusion h
  | some eol =>
    rw [hidx] at h
    have hbound := indexOfSub_bound pat (data.drop offset) eol hidx
    rw [List.length_drop] at hbound
    simp only [Option.some.injEq] at h
    subst h
    simp only [List.length_append, List.length_take, List.length_drop]
    omega

theorem stripComment_lt (data : List Char) (offset : Nat) (d2 : List Char)
    (h : stripComment data offset = some d2) : d2.length < data.length := by
  unfold stripComment at h
  split at h
  · rename_i hoff
    split at h
    · split at h
      · rename_i hoff2
        split at h
        · exact cutComment_lt data offset ['\n'] d2 hoff (by simp) h
        · exact cutComment_lt data offset ['*', '/'] d2 hoff (by simp) h
        · exact Option.noConfusion h
      · exact Option.noConfusion h
    · exact Option.noConfusion h
  · exact Option.noConfusion h

theorem readJsonStep_retry_lt (unmarshal : List Char → UnmarshalOutcome)
    (data d2 : List Char) (h : readJsonStep unmarshal data = StepResult.retry d2) :
    d2.length < data.length := by
  cases hu : unmarshal data with
  | success =>
    simp only [readJsonStep, hu] at h
    exact StepResult.noConfusion h
  | otherError =>
    simp only [readJsonStep, hu] at h
    exact StepResult.noConfusion h
  | syntaxError off =>
    by_cases h0 : off = 0
    · simp only [readJsonStep, hu, if_pos h0] at h
      exact StepResult.noConfusion h
    · cases hsc : stripComment data (off - 1) with
      | none =>
        simp only [readJsonStep, hu, if_neg h0, hsc] at h
        exact StepResult.noConfusion h
      | some d3 =>
        simp only [readJsonStep, hu, if_neg h0, hsc, StepResult.retry.injEq] at h
        subst h
        exact stripComment_lt data (off - 1) d3 hsc

theorem readJsonLoop_total (unmarshal : List Char → UnmarshalOutcome) :
    ∀ (fuel : Nat) (data : List Char), data.length < fuel →
      readJsonLoop unmarshal fuel data ≠ none := by
  intro fuel
  induction fuel with
  | zero => intro data h; omega
  | succ n ih =>
    intro data h
    cases hstep : readJsonStep unmarshal data with
    | done => simp [readJsonLoop, hstep]
    | retry d2 =>
      have hlt := readJsonStep_retry_lt unmarshal data d2 hstep
      simp only [readJsonLoop, hstep]
      exact ih d2 (by omega)

/-! ## Claim C10 -/

/-- C10: the comment-stripping retry loop of `ReadJSONFromFile` terminates:
every iteration either leaves the loop or retries on data from which a
detected comment (at least one byte, in fact the comment body plus its
terminator) has been removed, so the data length strictly decreases; hence
the loop, run with fuel exceeding the initial data length, never exhausts
its fuel. -/
theorem c10_readJson_loop_terminates :
    (∀ (unmarshal : List Char → UnmarshalOutcome) (data d2 : List Char),
      readJsonStep unmarshal data = StepResult.retry d2 →
        d2.length < data.length) ∧
    (∀ (unmarshal : List Char → UnmarshalOutcome) (fuel : Nat) (data : List Char),
      data.length < fuel → readJsonLoop unmarshal fuel data ≠ none) :=
  ⟨readJsonStep_retry_lt, fun unmarshal => readJsonLoop_total unmarshal⟩

/-- Witness for C10: the theorem applied to a concrete unmarshaller that
reports a syntax error at the start of a line comment; the loop strips the
comment and then succeeds. -/
theorem c10_witness :
    readJsonLoop
      (fun d => if d.length = 8 then UnmarshalOutcome.syntaxError 3 else
        UnmarshalOutcome.success)
      9 ("ab//c\nde".data) ≠ none :=
  c10_readJson_loop_terminates.2
    (fun d => if d.length = 8 then UnmarshalOutcome.syntaxError 3 else
      UnmarshalOutcome.success)
    9 ("ab//c\nde".data) (by decide)

/-! ## Helper lemmas: the generateGet path template -/

theorem percentCount_append (a b : String) :
    percentCount (a ++ b) = percentCount a + percentCount b := by
  simp [percentCount, String.data_append, List.count_append]

theorem generateGetPath_cons (p : Resource) (parents : List Resource) (tr : Resource) :
    generateGetPath (p :: parents) tr =
      p.Path ++ (if p.identifierName.isSome then "/%s/" else "/") ++
        generateGetPath parents tr := by
  have hdl : (p :: (parents ++ [tr])).dropLast = p :: (parents ++ [tr]).dropLast := by
    cases parents <;> simp
  simp only [generateGetPath, buildQueryPath, List.cons_append, hdl, List.foldr_cons]
  rw [String.append_assoc]

theorem generateGetPath_count (parents : List Resource) (tr : Resource)
    (hp : ∀ r ∈ parents, r.Path.data.count '%' = 0)
    (ht : tr.Path.data.count '%' = 0) :
    percentCount (generateGetPath parents tr) =
      (parents.countP fun r => r.identifierName.isSome) + 1 := by
  induction parents with
  | nil =>
    show percentCount (tr.Path ++ "/%s") = 0 + 1
    rw [percentCount_append]
    have h1 : percentCount tr.Path = 0 := ht
    rw [h1]
    rfl
  | cons p ps ih =>
    have hpp : percentCount p.Path = 0 := hp p (List.mem_cons_self p ps)
    have h1 : percentCount "/%s/" = 1 := rfl
    have h0 : percentCount "/" = 0 := rfl
    rw [generateGetPath_cons, percentCount_append, percentCount_append,
      ih (fun r hr => hp r (List.mem_cons_of_mem p hr)), List.countP_cons]
    cases hs : p.identifierName.isSome <;> (simp [hs, h1, h0, hpp]; try omega)

/-! ## Claim C3 -/

/-- C3: the request path template emitted by `generateGet` lists path
segments and entity-identifier placeholders outermost-ancestor-first in URL
left-to-right order (second conjunct: the head ancestor's segment and, when
it is keyed, its placeholder come first, before the template of the rest of
the chain), with exactly one `%s` placeholder per keyed collection in the
chain plus one trailing placeholder for the resource's own entity (third
conjunct, counting the `%` markers); ancestors Org(id), Team(id) and a get
on Member yield `orgs/%s/teams/%s/members/%s` (first conjunct — the Go
code renders placeholders as `fmt.Sprintf` `%s` verbs rather than `{id}`,
with one identifier argument per keyed resource in chain order). -/
theorem c3_generateGet_path_template :
    (generateGetPath [⟨"orgs", some "id"⟩, ⟨"teams", some "id"⟩]
        ⟨"members", some "id"⟩ = "orgs/%s/teams/%s/members/%s") ∧
    (∀ (p : Resource) (parents : List Resource) (tr : Resource),
      generateGetPath (p :: parents) tr =
        p.Path ++ (if p.identifierName.isSome then "/%s/" else "/") ++
          generateGetPath parents tr) ∧
    (∀ (parents : List Resource) (tr : Resource),
      (∀ r ∈ parents, r.Path.data.count '%' = 0) → tr.Path.data.count '%' = 0 →
      percentCount (generateGetPath parents tr) =
        (parents.countP fun r => r.identifierName.isSome) + 1) :=
  ⟨rfl, generateGetPath_cons, generateGetPath_count⟩

/-- Witness for C3: the placeholder-count conjunct applied at a concrete
one-ancestor chain with percent-free path segments. -/
theorem c3_witness :
    percentCount (generateGetPath [⟨"orgs", some "id"⟩] ⟨"members", some "id"⟩) = 2 :=
  (c3_generateGet_path_template.2.2 [⟨"orgs", some "id"⟩] ⟨"members", some "id"⟩
    (by decide) (by decide)).trans (by decide)

/-! ## Claim C4 -/

/-- C4: a resource whose entity identifier carries structured sub-parameters
(`getIdentifier().hasParams()`) is skipped wholesale: `parse` emits no
resource unit for it or for any of its nested sub-resources, and instead
surfaces exactly one skip report naming the affected subtree (first
conjunct).  The skip is local: a parent whose sub-resource list contains a
complex-key resource and an unaffected sibling still emits itself and the
full parse of the sibling, with the skipped subtree contributing only its
report — compilation continues rather than aborting (second conjunct). -/
theorem c4_parse_complex_key_skip :
    (∀ (chain : List String) (name : String) (subs : List ResourceSchema)
        (simple : Option (List ResourceSchema)),
      parse chain (ResourceSchema.mk name (some (true, subs)) simple) =
        ([], [chain ++ [name]])) ∧
    (∀ (chain : List String) (n bname : String) (bsubs : List ResourceSchema)
        (bsimple : Option (List ResourceSchema)) (good : ResourceSchema),
      parse chain
          (ResourceSchema.mk n
            (some (false,
              [ResourceSchema.mk bname (some (true, bsubs)) bsimple, good]))
            none) =
        ((chain ++ [n]) :: (parse (chain ++ [n]) good).1,
          (chain ++ [n] ++ [bname]) :: (parse (chain ++ [n]) good).2)) := by
  constructor
  · intro chain name subs simple
    cases simple <;> rfl
  · intro chain n bname bsubs bsimple good
    have hbad : parse (chain ++ [n])
        (ResourceSchema.mk bname (some (true, bsubs)) bsimple) =
        ([], [chain ++ [n] ++ [bname]]) := by
      cases bsimple <;> rfl
    simp [parse, parseList, hbad]

end GoRestli
